import Mathlib

/-!
Verification of the `MultiLevelMap` class from `src/Utils.js` of
typhonjs-core-utils (the nested-map container, methods `clear`, `delete`,
`entries`, `get`, `has`, `isMap`, `keys`, `set`, `size`, `values`, and the
private helper `s_FIND_CHILD_MAP`).

Embedding notes.  A JavaScript `Map` is an insertion-ordered association
container with unique keys; we model it as an association list
`List (K × Val K A)` where `Val` is the two-variant slot type: a stored
value is either a `leaf` (an arbitrary non-Map value, drawn from `A`) or a
nested `map` (another association list).  `Map.set` updates an existing
entry in place (preserving insertion order and the original key object) or
appends a new entry; `Map.delete` removes the entry; `Map.get` returns the
value or `undefined` (here `Option`).  JavaScript mutates maps through
references; the embedding passes the root state explicitly, and mutation of
a nested map found by path resolution is expressed by rebuilding the spine
(`modifyAt`).  Methods that throw on a missing key argument return
`Except String` carrying the exact message thrown by the source; `set`,
which can also throw the conflict error from `s_FIND_CHILD_MAP` after some
mutation has happened, returns a dedicated `SetResult` whose `conflict`
constructor records the offending key, the key list embedded in the error
message, and the root state at the moment of the throw.
-/

/-- Slot value of the multi-level map: either a leaf value or a nested map
(`value instanceof Map` in the source distinguishes the two). -/
inductive Val (K A : Type) where
  | leaf : A → Val K A
  | map : List (K × Val K A) → Val K A

/-- One level of the backing store: a JavaScript `Map` as an
insertion-ordered association list. -/
abbrev MLMap (K A : Type) := List (K × Val K A)

variable {K A : Type} [DecidableEq K]

/-- JavaScript `Map.prototype.get`: first (unique) entry with this key, or
`undefined` (`none`). -/
def mapGet : MLMap K A → K → Option (Val K A)
  | [], _ => none
  | (k1, v1) :: rest, k => if k1 = k then some v1 else mapGet rest k

/-- JavaScript `Map.prototype.has`. -/
def mapHas (m : MLMap K A) (k : K) : Bool :=
  (mapGet m k).isSome

/-- JavaScript `Map.prototype.set`: update the existing entry in place
(keeping the original key and its position) or append a new one. -/
def mapSet : MLMap K A → K → Val K A → MLMap K A
  | [], k, v => [(k, v)]
  | (k1, v1) :: rest, k, v =>
    if k1 = k then (k1, v) :: rest else (k1, v1) :: mapSet rest k v

/-- JavaScript `Map.prototype.delete`, the removal part: drop the entry for
the key.  (The boolean result of the source is `mapHas` before removal.) -/
def mapDelete : MLMap K A → K → MLMap K A
  | [], _ => []
  | (k1, v1) :: rest, k =>
    if k1 = k then rest else (k1, v1) :: mapDelete rest k

/-- `s_FIND_CHILD_MAP` in lookup mode (`create = false`): follow the keys,
descending only through values that are nested maps; `null` (`none`) the
moment a key is absent or holds a leaf. -/
def findChildMap : List K → MLMap K A → Option (MLMap K A)
  | [], m => some m
  | k :: ks, m =>
    match mapGet m k with
    | some (Val.map m2) => findChildMap ks m2
    | _ => none

/-- In-place mutation of the map found by `s_FIND_CHILD_MAP` in lookup
mode, made functional: rebuild the spine with the resolved child replaced
by `f` of itself.  When resolution fails at any level the state is
returned unchanged (the source's `if (map !== null)` guard); this is
proved below as `modifyAt_of_findChildMap_none`. -/
def modifyAt : List K → (MLMap K A → MLMap K A) → MLMap K A → MLMap K A
  | [], f, m => f m
  | k :: ks, f, m =>
    match mapGet m k with
    | some (Val.map m2) => mapSet m k (Val.map (modifyAt ks f m2))
    | _ => m

/-- Outcome of the create-mode walk of `set`: either the new root together
with the map that received the final write, or the conflict throw of
`s_FIND_CHILD_MAP` carrying the offending key and the root state at the
moment of the throw (mutations already performed persist, as they do for
the JavaScript references). -/
inductive SetOutcome (K A : Type) where
  | ok (root : MLMap K A) (target : MLMap K A) : SetOutcome K A
  | conflict (key : K) (root : MLMap K A) : SetOutcome K A

/-- The create-mode walk of `s_FIND_CHILD_MAP` fused with the final
`map.set(indexKey, value)` of `MultiLevelMap.set`.  Per key: descend
through an existing nested map; throw the conflict error if the key holds
a value that is not a map (`childMap.has(key)` with a non-Map value);
otherwise create a fresh empty map, link it, and continue inside it.
With no keys left, write the final entry and return the written map. -/
def setWalk : List K → K → Val K A → MLMap K A → SetOutcome K A
  | [], k, v, m => .ok (mapSet m k v) (mapSet m k v)
  | k1 :: ks, k, v, m =>
    match mapGet m k1 with
    | some (Val.map m2) =>
      match setWalk ks k v m2 with
      | .ok r t => .ok (mapSet m k1 (Val.map r)) t
      | .conflict key r => .conflict key (mapSet m k1 (Val.map r))
    | some _ => .conflict k1 m
    | none =>
      match setWalk ks k v ([] : MLMap K A) with
      | .ok r t => .ok (mapSet m k1 (Val.map r)) t
      | .conflict key r => .conflict key (mapSet m k1 (Val.map r))

/-- Split a non-empty list (head plus tail) into its leading keys and its
last element; models `keys.slice(0, keysLength - 1)` plus
`keys[keysLength - 1]` of the source. -/
def splitLast : K → List K → List K × K
  | k, [] => ([], k)
  | k, k2 :: ks =>
    let p := splitLast k2 ks
    (k :: p.1, p.2)

/-- Result of `MultiLevelMap.set`: the argument-count error, the conflict
error of `s_FIND_CHILD_MAP` (offending key, key list quoted in the
message, root state at the throw), or success (new root state and the
returned map — the map that received the write). -/
inductive SetResult (K A : Type) where
  | argError (msg : String) : SetResult K A
  | conflict (key : K) (keys : List K) (root : MLMap K A) : SetResult K A
  | ok (root : MLMap K A) (target : MLMap K A) : SetResult K A

namespace MultiLevelMap

/-- `MultiLevelMap.clear`: no keys clears the base map; otherwise resolve
the child map in lookup mode and clear it in place, a no-op when
resolution fails. -/
def clear (keys : List K) (m : MLMap K A) : MLMap K A :=
  match keys with
  | [] => []
  | _ :: _ =>
    match findChildMap keys m with
    | some _ => modifyAt keys (fun _ => []) m
    | none => m

/-- `MultiLevelMap.delete`: zero keys throws; otherwise resolve the map for
all keys but the last (the base map for a single key), remove the last key
from it, and report whether it was present; `false` and no change when the
intermediate path does not resolve. -/
def delete (keys : List K) (m : MLMap K A) :
    Except String (Bool × MLMap K A) :=
  match keys with
  | [] => .error "delete - no keys specified."
  | k :: ks =>
    let p := splitLast k ks
    match findChildMap p.1 m with
    | some sub => .ok (mapHas sub p.2, modifyAt p.1 (fun mm => mapDelete mm p.2) m)
    | none => .ok (false, m)

/-- `MultiLevelMap.entries`: the entry list (insertion order) of the base
map for no keys, of the resolved child map otherwise; the empty iterator
when resolution fails. -/
def entries (keys : List K) (m : MLMap K A) : List (K × Val K A) :=
  match keys with
  | [] => m
  | _ :: _ =>
    match findChildMap keys m with
    | some sub => sub
    | none => []

/-- `MultiLevelMap.get`: zero keys throws; otherwise resolve the map for
all keys but the last and look the last key up in it; `undefined`
(`none`) when the intermediate path does not resolve. -/
def get (keys : List K) (m : MLMap K A) :
    Except String (Option (Val K A)) :=
  match keys with
  | [] => .error "get - no keys specified."
  | k :: ks =>
    let p := splitLast k ks
    match findChildMap p.1 m with
    | some sub => .ok (mapGet sub p.2)
    | none => .ok none

/-- `MultiLevelMap.has`: zero keys throws; otherwise resolve the map for
all keys but the last and test the last key; `false` when the
intermediate path does not resolve. -/
def has (keys : List K) (m : MLMap K A) : Except String Bool :=
  match keys with
  | [] => .error "has - no keys specified."
  | k :: ks =>
    let p := splitLast k ks
    match findChildMap p.1 m with
    | some sub => .ok (mapHas sub p.2)
    | none => .ok false

/-- `MultiLevelMap.isMap`: true for zero keys (the base is a map);
otherwise whether the full key path resolves to a nested map
(`s_FIND_CHILD_MAP` only ever returns maps or `null`). -/
def isMap (keys : List K) (m : MLMap K A) : Bool :=
  match keys with
  | [] => true
  | _ :: _ => (findChildMap keys m).isSome

/-- `MultiLevelMap.keys`: the key list of the targeted map, empty when the
path does not resolve. -/
def keysList (keys : List K) (m : MLMap K A) : List K :=
  match keys with
  | [] => m.map Prod.fst
  | _ :: _ =>
    match findChildMap keys m with
    | some sub => sub.map Prod.fst
    | none => []

/-- `MultiLevelMap.set`: the parameter list is the key list `ps` followed
by the value `v` (so `ps = []` is the one-parameter call, which throws;
the zero-parameter call, which also throws, has no counterpart in a typed
embedding).  With one key, write into the base map — the JavaScript
`Map.set` returns the (mutated) base map itself.  With more keys, resolve
in create mode through all keys but the last, then write the last key in
the resolved map and return that map. -/
def set (ps : List K) (v : Val K A) (m : MLMap K A) : SetResult K A :=
  match ps with
  | [] => .argError "set - only 1 param specified; needs 2 minimum."
  | k :: ks =>
    let p := splitLast k ks
    match setWalk p.1 p.2 v m with
    | .ok r t => .ok r t
    | .conflict key r => .conflict key p.1 r

/-- `MultiLevelMap.size`: entry count of the base map for no keys, of the
resolved child map otherwise; `0` when resolution fails. -/
def size (keys : List K) (m : MLMap K A) : Nat :=
  match keys with
  | [] => m.length
  | _ :: _ =>
    match findChildMap keys m with
    | some sub => sub.length
    | none => 0

/-- `MultiLevelMap.values`: the value list of the targeted map, empty when
the path does not resolve. -/
def valuesList (keys : List K) (m : MLMap K A) : List (Val K A) :=
  match keys with
  | [] => m.map Prod.snd
  | _ :: _ =>
    match findChildMap keys m with
    | some sub => sub.map Prod.snd
    | none => []

end MultiLevelMap

/-- Well-formedness of a stored value: at every nesting level the keys are
pairwise distinct, as they are in a real JavaScript `Map`. -/
inductive WFv : Val K A → Prop where
  | leaf (a : A) : WFv (Val.leaf a)
  | map (m : MLMap K A) :
      List.Pairwise (fun pr qr => pr.1 ≠ qr.1) m →
      (∀ pr ∈ m, WFv pr.2) → WFv (Val.map m)

/-- Well-formedness of one map level together with everything below it. -/
def WFm (m : MLMap K A) : Prop :=
  List.Pairwise (fun pr qr => pr.1 ≠ qr.1) m ∧ ∀ pr ∈ m, WFv pr.2

/-- Prefix test on key paths, as a boolean. -/
def pathPreB : List K → List K → Bool
  | [], _ => true
  | _ :: _, [] => false
  | a :: p, b :: q => if a = b then pathPreB p q else false

/-- The slot a non-empty key path `p ++ [x]` addresses for reading: resolve
`p` in lookup mode, then look `x` up in the resolved map (`none` when the
path does not resolve).  This is exactly the body of the multi-key branch
of `MultiLevelMap.get`. -/
def pathGet (p : List K) (x : K) (m : MLMap K A) : Option (Val K A) :=
  match findChildMap p m with
  | some sub => mapGet sub x
  | none => none

section BasicLemmas

theorem mapGet_mapSet_self (m : MLMap K A) (k : K) (v : Val K A) :
    mapGet (mapSet m k v) k = some v := by
  induction m with
  | nil => simp [mapSet, mapGet]
  | cons pr rest ih =>
    obtain ⟨k1, v1⟩ := pr
    by_cases h : k1 = k
    · simp [mapSet, mapGet, h]
    · simp [mapSet, mapGet, h, ih]

theorem mapGet_mapSet_ne (m : MLMap K A) {k k' : K} (v : Val K A)
    (h : k' ≠ k) : mapGet (mapSet m k v) k' = mapGet m k' := by
  have hk : ¬k = k' := fun hh => h hh.symm
  induction m with
  | nil => simp [mapSet, mapGet, hk]
  | cons pr rest ih =>
    obtain ⟨k1, v1⟩ := pr
    by_cases h1 : k1 = k
    · have h2 : ¬k1 = k' := fun hh => h (hh ▸ h1)
      simp [mapSet, mapGet, h1, h2, hk]
    · by_cases h2 : k1 = k'
      · simp [mapSet, mapGet, h1, h2, h]
      · simp [mapSet, mapGet, h1, h2, ih]

theorem mapSet_eq_self {m : MLMap K A} {k : K} {v : Val K A}
    (h : mapGet m k = some v) : mapSet m k v = m := by
  induction m with
  | nil => simp [mapGet] at h
  | cons pr rest ih =>
    obtain ⟨k1, v1⟩ := pr
    by_cases h1 : k1 = k
    · simp [mapGet, h1] at h
      simp [mapSet, h1, h]
    · simp [mapGet, h1] at h
      simp [mapSet, h1, ih h]

theorem mapGet_eq_none_of_keys_ne {m : MLMap K A} {k : K}
    (h : ∀ pr ∈ m, pr.1 ≠ k) : mapGet m k = none := by
  induction m with
  | nil => rfl
  | cons pr rest ih =>
    obtain ⟨k1, v1⟩ := pr
    have h1 : k1 ≠ k := h (k1, v1) (List.mem_cons_self _ _)
    simp only [mapGet, if_neg h1]
    exact ih fun q hq => h q (List.mem_cons_of_mem _ hq)

theorem mapGet_mapDelete_self {m : MLMap K A} (k : K)
    (hm : List.Pairwise (fun pr qr => pr.1 ≠ qr.1) m) :
    mapGet (mapDelete m k) k = none := by
  induction m with
  | nil => rfl
  | cons pr rest ih =>
    obtain ⟨k1, v1⟩ := pr
    rw [List.pairwise_cons] at hm
    by_cases h1 : k1 = k
    · subst h1
      simp only [mapDelete, if_pos rfl]
      exact mapGet_eq_none_of_keys_ne fun q hq => Ne.symm (hm.1 q hq)
    · simp only [mapDelete, if_neg h1, mapGet, if_neg h1]
      exact ih hm.2

theorem mem_mapSet {m : MLMap K A} {k : K} {v : Val K A} {pr : K × Val K A}
    (h : pr ∈ mapSet m k v) : pr ∈ m ∨ pr.1 = k := by
  induction m with
  | nil =>
    simp [mapSet] at h
    subst h
    exact Or.inr rfl
  | cons q rest ih =>
    obtain ⟨k1, v1⟩ := q
    by_cases h1 : k1 = k
    · simp only [mapSet, if_pos h1] at h
      rcases List.mem_cons.mp h with h2 | h2
      · exact Or.inr (h2 ▸ h1)
      · exact Or.inl (List.mem_cons_of_mem _ h2)
    · simp only [mapSet, if_neg h1] at h
      rcases List.mem_cons.mp h with h2 | h2
      · exact Or.inl (h2 ▸ List.mem_cons_self _ _)
      · rcases ih h2 with h3 | h3
        · exact Or.inl (List.mem_cons_of_mem _ h3)
        · exact Or.inr h3

theorem mapGet_mem {m : MLMap K A} {k : K} {v : Val K A}
    (h : mapGet m k = some v) : (k, v) ∈ m := by
  induction m with
  | nil => simp [mapGet] at h
  | cons pr rest ih =>
    obtain ⟨k1, v1⟩ := pr
    by_cases h1 : k1 = k
    · simp only [mapGet, if_pos h1] at h
      subst h1
      obtain rfl : v1 = v := Option.some.inj h
      exact List.mem_cons_self _ _
    · simp only [mapGet, if_neg h1] at h
      exact List.mem_cons_of_mem _ (ih h)

theorem wfm_mapSet {m : MLMap K A} {k : K} {v : Val K A}
    (hm : WFm m) (hv : WFv v) : WFm (mapSet m k v) := by
  induction m with
  | nil =>
    refine ⟨?_, ?_⟩
    · simp [mapSet]
    · intro pr hpr
      simp [mapSet] at hpr
      subst hpr
      exact hv
  | cons pr rest ih =>
    obtain ⟨k1, v1⟩ := pr
    obtain ⟨hpw, hvals⟩ := hm
    rw [List.pairwise_cons] at hpw
    by_cases h1 : k1 = k
    · refine ⟨?_, ?_⟩
      · simp only [mapSet, if_pos h1]
        exact List.pairwise_cons.mpr ⟨hpw.1, hpw.2⟩
      · intro q hq
        simp only [mapSet, if_pos h1] at hq
        rcases List.mem_cons.mp hq with h2 | h2
        · subst h2
          exact hv
        · exact hvals q (List.mem_cons_of_mem _ h2)
    · have hrest : WFm (mapSet rest k v) :=
        ih ⟨hpw.2, fun q hq => hvals q (List.mem_cons_of_mem _ hq)⟩
      refine ⟨?_, ?_⟩
      · simp only [mapSet, if_neg h1]
        refine List.pairwise_cons.mpr ⟨?_, hrest.1⟩
        intro q hq
        rcases mem_mapSet hq with h2 | h2
        · exact hpw.1 q h2
        · rw [h2]
          exact h1
      · intro q hq
        simp only [mapSet, if_neg h1] at hq
        rcases List.mem_cons.mp hq with h2 | h2
        · subst h2
          exact hvals (k1, v1) (List.mem_cons_self _ _)
        · exact hrest.2 q h2

end BasicLemmas

section WalkLemmas

theorem modifyAt_of_findChildMap_none :
    ∀ (ks : List K) (f : MLMap K A → MLMap K A) (m : MLMap K A),
      findChildMap ks m = none → modifyAt ks f m = m := by
  intro ks
  induction ks with
  | nil =>
    intro f m h
    simp [findChildMap] at h
  | cons k1 rest ih =>
    intro f m h
    simp only [findChildMap] at h
    simp only [modifyAt]
    split
    · rename_i m2 heq
      rw [heq] at h
      rw [ih _ _ h]
      exact mapSet_eq_self heq
    · rfl

theorem findChildMap_modifyAt :
    ∀ (ks : List K) (f : MLMap K A → MLMap K A) (m t : MLMap K A),
      findChildMap ks m = some t →
      findChildMap ks (modifyAt ks f m) = some (f t) := by
  intro ks
  induction ks with
  | nil =>
    intro f m t h
    simp only [findChildMap] at h ⊢
    exact congrArg (some ∘ f) (Option.some.inj h)
  | cons k1 rest ih =>
    intro f m t h
    simp only [findChildMap] at h
    simp only [modifyAt]
    split
    · rename_i m2 heq
      rw [heq] at h
      simp only [findChildMap, mapGet_mapSet_self]
      exact ih f m2 t h
    · rename_i hne
      exfalso
      cases hg : mapGet m k1 with
      | none => rw [hg] at h; exact Option.noConfusion h
      | some w =>
        cases w with
        | leaf a => rw [hg] at h; exact Option.noConfusion h
        | map m2 => exact hne m2 hg

theorem findChildMap_take_modifyAt :
    ∀ (ks : List K) (f : MLMap K A → MLMap K A) (m t : MLMap K A),
      findChildMap ks m = some t →
      ∀ j, (findChildMap (ks.take j) (modifyAt ks f m)).isSome = true := by
  intro ks
  induction ks with
  | nil =>
    intro f m t h j
    simp [findChildMap]
  | cons k1 rest ih =>
    intro f m t h j
    simp only [findChildMap] at h
    cases hg : mapGet m k1 with
    | none => rw [hg] at h; exact Option.noConfusion h
    | some w =>
      cases w with
      | leaf a => rw [hg] at h; exact Option.noConfusion h
      | map m2 =>
        rw [hg] at h
        simp only [modifyAt, hg]
        cases j with
        | zero => simp [findChildMap]
        | succ j' =>
          simp only [List.take_succ_cons, findChildMap, mapGet_mapSet_self]
          exact ih f m2 t h j'

theorem setWalk_on_nil (ks : List K) (k : K) (v : Val K A) :
    ∃ r t, setWalk ks k v ([] : MLMap K A) = SetOutcome.ok r t := by
  induction ks with
  | nil => exact ⟨_, _, rfl⟩
  | cons k1 rest ih =>
    obtain ⟨r, t, hw⟩ := ih
    refine ⟨mapSet ([] : MLMap K A) k1 (Val.map r), t, ?_⟩
    simp only [setWalk, mapGet, hw]

theorem setWalk_conflict_eq :
    ∀ (ks : List K) (k : K) (v : Val K A) (m : MLMap K A) {key : K}
      {r : MLMap K A}, setWalk ks k v m = SetOutcome.conflict key r →
      r = m := by
  intro ks
  induction ks with
  | nil =>
    intro k v m key r h
    exact SetOutcome.noConfusion h
  | cons k1 rest ih =>
    intro k v m key r h
    simp only [setWalk] at h
    split at h
    · rename_i m2 heq
      split at h
      · exact SetOutcome.noConfusion h
      · rename_i key2 r2 hw
        injection h with h1 h2
        subst h1
        rw [ih k v m2 hw] at h2
        rw [← h2]
        exact mapSet_eq_self heq
    · injection h with h1 h2
      exact h2.symm
    · split at h
      · exact SetOutcome.noConfusion h
      · rename_i key2 r2 hw
        obtain ⟨r3, t3, hw3⟩ := setWalk_on_nil rest k v
        rw [hw3] at hw
        exact SetOutcome.noConfusion hw

theorem setWalk_conflict_key_mem :
    ∀ (ks : List K) (k : K) (v : Val K A) (m : MLMap K A) {key : K}
      {r : MLMap K A}, setWalk ks k v m = SetOutcome.conflict key r →
      key ∈ ks := by
  intro ks
  induction ks with
  | nil =>
    intro k v m key r h
    exact SetOutcome.noConfusion h
  | cons k1 rest ih =>
    intro k v m key r h
    simp only [setWalk] at h
    split at h
    · rename_i m2 heq
      split at h
      · exact SetOutcome.noConfusion h
      · rename_i key2 r2 hw
        injection h with h1 h2
        subst h1
        exact List.mem_cons_of_mem _ (ih k v m2 hw)
    · injection h with h1 h2
      subst h1
      exact List.mem_cons_self _ _
    · split at h
      · exact SetOutcome.noConfusion h
      · rename_i key2 r2 hw
        obtain ⟨r3, t3, hw3⟩ := setWalk_on_nil rest k v
        rw [hw3] at hw
        exact SetOutcome.noConfusion hw

theorem setWalk_ok_resolve :
    ∀ (ks : List K) (k : K) (v : Val K A) (m : MLMap K A) {r t : MLMap K A},
      setWalk ks k v m = SetOutcome.ok r t →
      findChildMap ks r = some t ∧ mapGet t k = some v := by
  intro ks
  induction ks with
  | nil =>
    intro k v m r t h
    injection h with h1 h2
    subst h1
    subst h2
    exact ⟨rfl, mapGet_mapSet_self _ _ _⟩
  | cons k1 rest ih =>
    intro k v m r t h
    simp only [setWalk] at h
    split at h
    · rename_i m2 heq
      split at h
      · rename_i r2 t2 hw
        injection h with h1 h2
        subst h1
        subst h2
        refine ⟨?_, (ih k v m2 hw).2⟩
        simp only [findChildMap, mapGet_mapSet_self]
        exact (ih k v m2 hw).1
      · exact SetOutcome.noConfusion h
    · exact SetOutcome.noConfusion h
    · split at h
      · rename_i r2 t2 hw
        injection h with h1 h2
        subst h1
        subst h2
        refine ⟨?_, (ih k v ([] : MLMap K A) hw).2⟩
        simp only [findChildMap, mapGet_mapSet_self]
        exact (ih k v ([] : MLMap K A) hw).1
      · exact SetOutcome.noConfusion h

theorem setWalk_take :
    ∀ (ks : List K) (k : K) (v : Val K A) (m : MLMap K A) {r t : MLMap K A},
      setWalk ks k v m = SetOutcome.ok r t →
      ∀ j, (findChildMap (ks.take j) r).isSome = true := by
  intro ks
  induction ks with
  | nil =>
    intro k v m r t h j
    simp [findChildMap]
  | cons k1 rest ih =>
    intro k v m r t h j
    simp only [setWalk] at h
    split at h
    · rename_i m2 heq
      split at h
      · rename_i r2 t2 hw
        injection h with h1 h2
        subst h1
        cases j with
        | zero => simp [findChildMap]
        | succ j' =>
          simp only [List.take_succ_cons, findChildMap, mapGet_mapSet_self]
          exact ih k v m2 hw j'
      · exact SetOutcome.noConfusion h
    · exact SetOutcome.noConfusion h
    · split at h
      · rename_i r2 t2 hw
        injection h with h1 h2
        subst h1
        cases j with
        | zero => simp [findChildMap]
        | succ j' =>
          simp only [List.take_succ_cons, findChildMap, mapGet_mapSet_self]
          exact ih k v ([] : MLMap K A) hw j'
      · exact SetOutcome.noConfusion h

theorem wfm_findChildMap :
    ∀ (ks : List K) (m t : MLMap K A), WFm m →
      findChildMap ks m = some t → WFm t := by
  intro ks
  induction ks with
  | nil =>
    intro m t hm h
    exact Option.some.inj h ▸ hm
  | cons k1 rest ih =>
    intro m t hm h
    simp only [findChildMap] at h
    cases hg : mapGet m k1 with
    | none => rw [hg] at h; exact Option.noConfusion h
    | some w =>
      cases w with
      | leaf a => rw [hg] at h; exact Option.noConfusion h
      | map m2 =>
        rw [hg] at h
        have hmem := mapGet_mem hg
        have hwf2 := hm.2 _ hmem
        cases hwf2 with
        | map _ hpw hvals => exact ih m2 t ⟨hpw, hvals⟩ h

theorem wfm_setWalk :
    ∀ (ks : List K) (k : K) (v : Val K A) (m : MLMap K A) {r t : MLMap K A},
      WFm m → WFv v → setWalk ks k v m = SetOutcome.ok r t →
      WFm r ∧ WFm t := by
  intro ks
  induction ks with
  | nil =>
    intro k v m r t hm hv h
    injection h with h1 h2
    subst h1
    subst h2
    exact ⟨wfm_mapSet hm hv, wfm_mapSet hm hv⟩
  | cons k1 rest ih =>
    intro k v m r t hm hv h
    simp only [setWalk] at h
    split at h
    · rename_i m2 heq
      split at h
      · rename_i r2 t2 hw
        injection h with h1 h2
        subst h1
        subst h2
        have hwf2 : WFm m2 := by
          have hmem := mapGet_mem heq
          cases hm.2 _ hmem with
          | map _ hpw hvals => exact ⟨hpw, hvals⟩
        obtain ⟨hr2, ht2⟩ := ih k v m2 hwf2 hv hw
        exact ⟨wfm_mapSet hm (WFv.map _ hr2.1 hr2.2), ht2⟩
      · exact SetOutcome.noConfusion h
    · exact SetOutcome.noConfusion h
    · split at h
      · rename_i r2 t2 hw
        injection h with h1 h2
        subst h1
        subst h2
        have hnil : WFm ([] : MLMap K A) := ⟨List.Pairwise.nil, by simp⟩
        obtain ⟨hr2, ht2⟩ := ih k v ([] : MLMap K A) hnil hv hw
        exact ⟨wfm_mapSet hm (WFv.map _ hr2.1 hr2.2), ht2⟩
      · exact SetOutcome.noConfusion h

omit [DecidableEq K] in
theorem splitLast_spec :
    ∀ (p : List K) (x k : K) (ks : List K), p ++ [x] = k :: ks →
      splitLast k ks = (p, x) := by
  intro p
  induction p with
  | nil =>
    intro x k ks h
    injection h with h1 h2
    subst h1
    subst h2
    rfl
  | cons a p' ih =>
    intro x k ks h
    rw [List.cons_append] at h
    injection h with h1 h2
    subst h1
    subst h2
    cases hcons : p' ++ [x] with
    | nil => exact absurd hcons (by simp)
    | cons c cs =>
      simp only [splitLast]
      rw [ih x c cs hcons]

omit [DecidableEq K] in
theorem splitLast_fst_dropLast :
    ∀ (ks : List K) (k : K),
      (splitLast k ks).1 = (k :: ks).dropLast := by
  intro ks
  induction ks with
  | nil => intro k; rfl
  | cons k2 ks' ih =>
    intro k
    simp only [splitLast, List.dropLast_cons₂]
    rw [ih k2]

end WalkLemmas

section OpLemmas

theorem pathGet_nil (x : K) (m : MLMap K A) : pathGet [] x m = mapGet m x :=
  rfl

theorem pathGet_cons (p1 : K) (p' : List K) (x : K) (m : MLMap K A) :
    pathGet (p1 :: p') x m =
      match mapGet m p1 with
      | some (Val.map mm) => pathGet p' x mm
      | _ => none := by
  cases hg : mapGet m p1 with
  | none => simp [pathGet, findChildMap, hg]
  | some w =>
    cases w with
    | leaf a => simp [pathGet, findChildMap, hg]
    | map mm => simp [pathGet, findChildMap, hg]

theorem set_append (p : List K) (x : K) (v : Val K A) (m : MLMap K A) :
    MultiLevelMap.set (p ++ [x]) v m =
      match setWalk p x v m with
      | SetOutcome.ok r t => SetResult.ok r t
      | SetOutcome.conflict key r => SetResult.conflict key p r := by
  cases hc : p ++ [x] with
  | nil => exact absurd hc (by simp)
  | cons k ks =>
    simp only [MultiLevelMap.set, splitLast_spec p x k ks hc]

theorem get_append (p : List K) (x : K) (m : MLMap K A) :
    MultiLevelMap.get (p ++ [x]) m = Except.ok (pathGet p x m) := by
  cases hc : p ++ [x] with
  | nil => exact absurd hc (by simp)
  | cons k ks =>
    simp only [MultiLevelMap.get, splitLast_spec p x k ks hc, pathGet]
    cases findChildMap p m <;> rfl

theorem has_append (p : List K) (x : K) (m : MLMap K A) :
    MultiLevelMap.has (p ++ [x]) m = Except.ok (pathGet p x m).isSome := by
  cases hc : p ++ [x] with
  | nil => exact absurd hc (by simp)
  | cons k ks =>
    simp only [MultiLevelMap.has, splitLast_spec p x k ks hc, pathGet]
    cases findChildMap p m <;> rfl

theorem delete_append_found {p : List K} {m sub : MLMap K A} (x : K)
    (h : findChildMap p m = some sub) :
    MultiLevelMap.delete (p ++ [x]) m =
      Except.ok (mapHas sub x, modifyAt p (fun mm => mapDelete mm x) m) := by
  cases hc : p ++ [x] with
  | nil => exact absurd hc (by simp)
  | cons k ks =>
    simp only [MultiLevelMap.delete, splitLast_spec p x k ks hc, h]

theorem delete_append_missing {p : List K} {m : MLMap K A} (x : K)
    (h : findChildMap p m = none) :
    MultiLevelMap.delete (p ++ [x]) m = Except.ok (false, m) := by
  cases hc : p ++ [x] with
  | nil => exact absurd hc (by simp)
  | cons k ks =>
    simp only [MultiLevelMap.delete, splitLast_spec p x k ks hc, h]

end OpLemmas

section FrameLemmas

theorem findChildMap_on_nil {q : List K}
    (h : (findChildMap q ([] : MLMap K A)).isSome = true) : q = [] := by
  cases q with
  | nil => rfl
  | cons x q' => simp [findChildMap, mapGet] at h

theorem modifyAt_pathGet_frame :
    ∀ (P : List K) (f : MLMap K A → MLMap K A) (m : MLMap K A)
      (p : List K) (x : K),
      pathPreB P (p ++ [x]) = false → pathPreB (p ++ [x]) P = false →
      pathGet p x (modifyAt P f m) = pathGet p x m := by
  intro P
  induction P with
  | nil =>
    intro f m p x h1 h2
    exact absurd h1 (by simp [pathPreB])
  | cons P1 Ps ih =>
    intro f m p x h1 h2
    simp only [modifyAt]
    split
    · rename_i m2 heq
      cases p with
      | nil =>
        by_cases hx : x = P1
        · subst hx
          simp [pathPreB] at h2
        · rw [pathGet_nil, pathGet_nil]
          exact mapGet_mapSet_ne m _ hx
      | cons p1 p' =>
        rw [List.cons_append] at h1 h2
        by_cases hp : p1 = P1
        · subst hp
          simp only [pathPreB, if_pos rfl] at h1 h2
          rw [pathGet_cons, pathGet_cons, mapGet_mapSet_self, heq]
          exact ih f m2 p' x h1 h2
        · rw [pathGet_cons, pathGet_cons,
            mapGet_mapSet_ne m _ hp]
    · rfl

theorem setWalk_new_maps :
    ∀ (ks : List K) (k : K) (v : Val K A) (m : MLMap K A) {r t : MLMap K A},
      setWalk ks k v m = SetOutcome.ok r t →
      ∀ p, pathPreB (ks ++ [k]) p = false →
        (findChildMap p r).isSome = true →
        (findChildMap p m).isSome = true ∨ pathPreB p ks = true := by
  intro ks
  induction ks with
  | nil =>
    intro k v m r t h p hpre hsome
    injection h with h1 h2
    subst h1
    cases p with
    | nil => exact Or.inl rfl
    | cons x q =>
      by_cases hx : k = x
      · subst hx
        simp [pathPreB] at hpre
      · have hx' : x ≠ k := fun hh => hx hh.symm
        left
        rw [← hsome]
        simp only [findChildMap, mapGet_mapSet_ne m _ hx']
  | cons k1 rest ih =>
    intro k v m r t h p hpre hsome
    simp only [setWalk] at h
    split at h
    · rename_i m2 heq
      split at h
      · rename_i r2 t2 hw
        injection h with h1 h2
        subst h1
        cases p with
        | nil => exact Or.inl rfl
        | cons x q =>
          by_cases hx : x = k1
          · subst hx
            rw [List.cons_append] at hpre
            simp only [pathPreB, if_pos rfl] at hpre ⊢
            simp only [findChildMap, mapGet_mapSet_self] at hsome
            rcases ih k v m2 hw q hpre hsome with hl | hr
            · left
              simpa only [findChildMap, heq] using hl
            · right
              exact hr
          · have hx' : x ≠ k1 := hx
            left
            rw [← hsome]
            simp only [findChildMap, mapGet_mapSet_ne m _ hx']
      · exact SetOutcome.noConfusion h
    · exact SetOutcome.noConfusion h
    · rename_i heq
      split at h
      · rename_i r2 t2 hw
        injection h with h1 h2
        subst h1
        cases p with
        | nil => exact Or.inl rfl
        | cons x q =>
          by_cases hx : x = k1
          · subst hx
            rw [List.cons_append] at hpre
            simp only [pathPreB, if_pos rfl] at hpre ⊢
            simp only [findChildMap, mapGet_mapSet_self] at hsome
            rcases ih k v ([] : MLMap K A) hw q hpre hsome with hl | hr
            · obtain rfl : q = [] := findChildMap_on_nil hl
              right
              rfl
            · right
              exact hr
          · have hx' : x ≠ k1 := hx
            left
            rw [← hsome]
            simp only [findChildMap, mapGet_mapSet_ne m _ hx']
      · exact SetOutcome.noConfusion h

end FrameLemmas

section ClaimHelpers

theorem isMap_ne_nil {q : List K} (hq : q ≠ []) (m : MLMap K A) :
    MultiLevelMap.isMap q m = (findChildMap q m).isSome := by
  cases q with
  | nil => exact absurd rfl hq
  | cons a q' => rfl

end ClaimHelpers

/-- C1: for every non-empty key sequence `K = p ++ [x]` and every value
`v`, if `set(...K, v)` completes without throwing (result `ok r t`), then
immediately afterward `get(...K)` returns exactly `v` and `has(...K)`
returns `true`. -/
theorem set_get_has_roundtrip (p : List K) (x : K) (v : Val K A)
    (m r t : MLMap K A)
    (h : MultiLevelMap.set (p ++ [x]) v m = SetResult.ok r t) :
    MultiLevelMap.get (p ++ [x]) r = Except.ok (some v) ∧
    MultiLevelMap.has (p ++ [x]) r = Except.ok true := by
  rw [set_append] at h
  cases hw : setWalk p x v m with
  | ok r2 t2 =>
    rw [hw] at h
    injection h with h1 h2
    subst h1
    obtain ⟨hres, hget⟩ := setWalk_ok_resolve p x v m hw
    have hpg : pathGet p x r2 = some v := by
      simp only [pathGet, hres, hget]
    rw [get_append, has_append, hpg]
    exact ⟨rfl, rfl⟩
  | conflict key r2 =>
    rw [hw] at h
    exact SetResult.noConfusion h

/-- C1 witness: the theorem applied at `set(1, 2, leaf 5)` on the empty
container. -/
theorem set_get_has_roundtrip_witness :
    MultiLevelMap.get ([1] ++ [2])
        [((1 : Nat), Val.map [(2, Val.leaf (5 : Nat))])] =
      Except.ok (some (Val.leaf 5)) ∧
    MultiLevelMap.has ([1] ++ [2])
        [((1 : Nat), Val.map [(2, Val.leaf (5 : Nat))])] =
      Except.ok true :=
  set_get_has_roundtrip [1] 2 (Val.leaf 5) [] _ [(2, Val.leaf 5)] rfl

/-- C2: if `set(k, v1)` stored a leaf at `k`, a subsequent
`set(k, k2, v2)` raises the conflict error and afterward `get(k)` still
returns `v1`; and in general, whenever `set` raises the conflict error the
container state at the throw equals the state before the call — in
particular it is unchanged at and below the conflicting segment, and the
(necessarily zero) intermediate mappings created before the conflict
remain. -/
theorem set_conflict_leaves_state (k k2 : K) (v1 v2 : Val K A)
    (m m1 t : MLMap K A)
    (hleaf : ∀ mm : MLMap K A, v1 ≠ Val.map mm)
    (h : MultiLevelMap.set [k] v1 m = SetResult.ok m1 t) :
    MultiLevelMap.set [k, k2] v2 m1 = SetResult.conflict k [k] m1 ∧
    MultiLevelMap.get [k] m1 = Except.ok (some v1) ∧
    ∀ (ps : List K) (v : Val K A) (m' : MLMap K A) (key : K)
      (eks : List K) (s : MLMap K A),
      MultiLevelMap.set ps v m' = SetResult.conflict key eks s → s = m' := by
  simp only [MultiLevelMap.set, splitLast, setWalk] at h
  injection h with h1 h2
  have hget : mapGet m1 k = some v1 := by
    rw [← h1]
    exact mapGet_mapSet_self _ _ _
  refine ⟨?_, ?_, ?_⟩
  · cases v1 with
    | map mm => exact absurd rfl (hleaf mm)
    | leaf a => simp only [MultiLevelMap.set, splitLast, setWalk, hget]
  · simp only [MultiLevelMap.get, splitLast, findChildMap, hget]
  · intro ps v m' key eks s hcf
    cases ps with
    | nil => exact SetResult.noConfusion hcf
    | cons k' ks' =>
      simp only [MultiLevelMap.set] at hcf
      cases hw : setWalk (splitLast k' ks').1 (splitLast k' ks').2 v m' with
      | ok r2 t2 =>
        rw [hw] at hcf
        exact SetResult.noConfusion hcf
      | conflict key2 r2 =>
        rw [hw] at hcf
        injection hcf with hc1 hc2 hc3
        subst hc3
        exact setWalk_conflict_eq _ _ _ _ hw

/-- C2 witness: the theorem applied at `set(1, leaf 5)` then
`set(1, 2, leaf 6)` on the empty container. -/
theorem set_conflict_leaves_state_witness :
    MultiLevelMap.set [1, 2] (Val.leaf 6) [((1 : Nat), Val.leaf (5 : Nat))] =
      SetResult.conflict 1 [1] [(1, Val.leaf 5)] ∧
    MultiLevelMap.get [1] [((1 : Nat), Val.leaf (5 : Nat))] =
      Except.ok (some (Val.leaf 5)) :=
  ⟨(set_conflict_leaves_state 1 2 (Val.leaf 5) (Val.leaf 6) [] [(1, Val.leaf 5)]
      [(1, Val.leaf 5)] (fun _mm hh => Val.noConfusion hh) rfl).1,
   (set_conflict_leaves_state 1 2 (Val.leaf 5) (Val.leaf 6) [] [(1, Val.leaf 5)]
      [(1, Val.leaf 5)] (fun _mm hh => Val.noConfusion hh) rfl).2.1⟩

/-- C3: a successful `set` over the key path `p ++ [x]` (length at least
2, so `p ≠ []`) auto-creates exactly the missing prefix mappings:
afterward every proper non-empty prefix of the path resolves to a map, and
any path that resolves to a map afterward and is not an extension of the
full written path either already resolved to a map before or is one of
those prefixes of `p`. -/
theorem set_creates_exactly_missing (p : List K) (x : K) (v : Val K A)
    (m r t : MLMap K A) (hp : p ≠ [])
    (h : MultiLevelMap.set (p ++ [x]) v m = SetResult.ok r t) :
    (∀ i, i + 1 ≤ p.length →
       MultiLevelMap.isMap ((p ++ [x]).take (i + 1)) r = true) ∧
    (∀ q, pathPreB (p ++ [x]) q = false →
       MultiLevelMap.isMap q r = true →
       MultiLevelMap.isMap q m = true ∨ pathPreB q p = true) := by
  rw [set_append] at h
  cases hw : setWalk p x v m with
  | conflict key r2 =>
    rw [hw] at h
    exact SetResult.noConfusion h
  | ok r2 t2 =>
    rw [hw] at h
    injection h with h1 h2
    subst h1
    constructor
    · intro i hi
      rw [List.take_append_of_le_length hi]
      have hne : p.take (i + 1) ≠ [] := by
        rw [Ne, List.take_eq_nil_iff]
        push_neg
        exact ⟨Nat.succ_ne_zero i, hp⟩
      rw [isMap_ne_nil hne]
      exact setWalk_take p x v m hw (i + 1)
    · intro q hpre hsome
      cases q with
      | nil => exact Or.inl rfl
      | cons a q' =>
        rw [isMap_ne_nil (List.cons_ne_nil a q')] at hsome
        rcases setWalk_new_maps p x v m hw (a :: q') hpre hsome with hl | hr
        · left
          rw [isMap_ne_nil (List.cons_ne_nil a q')]
          exact hl
        · exact Or.inr hr

/-- C3 witness: the theorem applied at `set(1, 2, leaf 5)` on the empty
container; the prefix `[1]` has become a map, and the unrelated path `[3]`
was a map before or is a prefix (here: vacuously settled by the
disjunction). -/
theorem set_creates_exactly_missing_witness :
    MultiLevelMap.isMap (([1] ++ [2]).take (0 + 1))
      [((1 : Nat), Val.map [(2, Val.leaf (5 : Nat))])] = true :=
  (set_creates_exactly_missing [1] 2 (Val.leaf 5) [] _ [(2, Val.leaf 5)]
    (by simp) rfl).1 0 (by decide)

/-- C4 counterexample: on a fresh container, after `set('a', 1)` and
`set('b', 'c', 2)`, the call `clear('a')` does NOT remove the entry
`'a'` — `'a'` holds a leaf, so lookup-mode resolution fails and `clear`
is a no-op; afterward `has('a')` is `true`, not `false` as the claim
states. -/
theorem clear_leaf_counterexample :
    MultiLevelMap.set ["a"] (Val.leaf (1 : Nat)) ([] : MLMap String Nat) =
      SetResult.ok [("a", Val.leaf 1)] [("a", Val.leaf 1)] ∧
    MultiLevelMap.set ["b", "c"] (Val.leaf 2) [("a", Val.leaf 1)] =
      SetResult.ok [("a", Val.leaf 1), ("b", Val.map [("c", Val.leaf 2)])]
        [("c", Val.leaf 2)] ∧
    MultiLevelMap.clear ["a"]
        [("a", Val.leaf 1), ("b", Val.map [("c", Val.leaf 2)])] =
      [("a", Val.leaf 1), ("b", Val.map [("c", Val.leaf 2)])] ∧
    MultiLevelMap.has ["a"]
        (MultiLevelMap.clear ["a"]
          [("a", Val.leaf 1), ("b", Val.map [("c", Val.leaf 2)])]) =
      Except.ok true :=
  ⟨rfl, rfl, rfl, rfl⟩

/-- C4 amended: on a fresh container, after `set('a', 1)` and
`set('b', 'c', 2)`, the call `clear('a')` is a no-op because `'a'` holds
a leaf value rather than a nested mapping (`clear` with keys only empties
a resolved nested mapping in place); afterward `has('a')` is still `true`
and `has('b', 'c')` is still `true`. -/
theorem clear_leaf_amended :
    MultiLevelMap.set ["a"] (Val.leaf (1 : Nat)) ([] : MLMap String Nat) =
      SetResult.ok [("a", Val.leaf 1)] [("a", Val.leaf 1)] ∧
    MultiLevelMap.set ["b", "c"] (Val.leaf 2) [("a", Val.leaf 1)] =
      SetResult.ok [("a", Val.leaf 1), ("b", Val.map [("c", Val.leaf 2)])]
        [("c", Val.leaf 2)] ∧
    MultiLevelMap.clear ["a"]
        [("a", Val.leaf 1), ("b", Val.map [("c", Val.leaf 2)])] =
      [("a", Val.leaf 1), ("b", Val.map [("c", Val.leaf 2)])] ∧
    MultiLevelMap.has ["a"]
        [("a", Val.leaf 1), ("b", Val.map [("c", Val.leaf 2)])] =
      Except.ok true ∧
    MultiLevelMap.has ["b", "c"]
        [("a", Val.leaf 1), ("b", Val.map [("c", Val.leaf 2)])] =
      Except.ok true :=
  ⟨rfl, rfl, rfl, rfl, rfl⟩

/-- C5: `delete`, `get`, `has` throw exactly on zero keys, and `set`
throws its argument error exactly when fewer than two total parameters
are given (here: an empty key list, i.e. one parameter); with at least
one key `delete`/`get`/`has` return normally, `set` never raises the
argument error, and `clear`, `isMap`, `keys`, `values`, `entries`,
`size`, and `delete` degrade to a no-op, `false`, `0`, or an empty
sequence when the path does not resolve. -/
theorem throw_and_degrade_behavior (m : MLMap K A) (v : Val K A) :
    MultiLevelMap.delete ([] : List K) m =
      Except.error "delete - no keys specified." ∧
    MultiLevelMap.get ([] : List K) m =
      Except.error "get - no keys specified." ∧
    MultiLevelMap.has ([] : List K) m =
      Except.error "has - no keys specified." ∧
    MultiLevelMap.set ([] : List K) v m =
      SetResult.argError "set - only 1 param specified; needs 2 minimum." ∧
    (∀ (k : K) (ks : List K), ∃ b m',
       MultiLevelMap.delete (k :: ks) m = Except.ok (b, m')) ∧
    (∀ (k : K) (ks : List K), ∃ o,
       MultiLevelMap.get (k :: ks) m = Except.ok o) ∧
    (∀ (k : K) (ks : List K), ∃ b,
       MultiLevelMap.has (k :: ks) m = Except.ok b) ∧
    (∀ (k : K) (ks : List K) (msg : String),
       MultiLevelMap.set (k :: ks) v m ≠ SetResult.argError msg) ∧
    (∀ (k : K) (ks : List K), findChildMap (k :: ks) m = none →
       MultiLevelMap.clear (k :: ks) m = m ∧
       MultiLevelMap.isMap (k :: ks) m = false ∧
       MultiLevelMap.size (k :: ks) m = 0 ∧
       MultiLevelMap.entries (k :: ks) m = [] ∧
       MultiLevelMap.keysList (k :: ks) m = [] ∧
       MultiLevelMap.valuesList (k :: ks) m = []) ∧
    (∀ (p : List K) (x : K), findChildMap p m = none →
       MultiLevelMap.delete (p ++ [x]) m = Except.ok (false, m)) := by
  refine ⟨rfl, rfl, rfl, rfl, ?_, ?_, ?_, ?_, ?_, ?_⟩
  · intro k ks
    cases hF : findChildMap (splitLast k ks).1 m with
    | some sub =>
      exact ⟨mapHas sub (splitLast k ks).2,
        modifyAt (splitLast k ks).1 (fun mm => mapDelete mm (splitLast k ks).2) m,
        by simp only [MultiLevelMap.delete, hF]⟩
    | none =>
      exact ⟨false, m, by simp only [MultiLevelMap.delete, hF]⟩
  · intro k ks
    cases hF : findChildMap (splitLast k ks).1 m with
    | some sub =>
      exact ⟨mapGet sub (splitLast k ks).2,
        by simp only [MultiLevelMap.get, hF]⟩
    | none => exact ⟨none, by simp only [MultiLevelMap.get, hF]⟩
  · intro k ks
    cases hF : findChildMap (splitLast k ks).1 m with
    | some sub =>
      exact ⟨mapHas sub (splitLast k ks).2,
        by simp only [MultiLevelMap.has, hF]⟩
    | none => exact ⟨false, by simp only [MultiLevelMap.has, hF]⟩
  · intro k ks msg hcontra
    simp only [MultiLevelMap.set] at hcontra
    cases hw : setWalk (splitLast k ks).1 (splitLast k ks).2 v m with
    | ok r t =>
      rw [hw] at hcontra
      exact SetResult.noConfusion hcontra
    | conflict key r =>
      rw [hw] at hcontra
      exact SetResult.noConfusion hcontra
  · intro k ks hF
    refine ⟨?_, ?_, ?_, ?_, ?_, ?_⟩
    · simp only [MultiLevelMap.clear, hF]
    · simp only [isMap_ne_nil (List.cons_ne_nil k ks), hF, Option.isSome_none]
    · simp only [MultiLevelMap.size, hF]
    · simp only [MultiLevelMap.entries, hF]
    · simp only [MultiLevelMap.keysList, hF]
    · simp only [MultiLevelMap.valuesList, hF]
  · intro p x hF
    exact delete_append_missing x hF

/-- C5 witness: the theorem applied on the empty container, exercising the
unresolved-path hypothesis at key `5`. -/
theorem throw_and_degrade_behavior_witness :
    MultiLevelMap.clear [5] ([] : MLMap Nat Nat) = ([] : MLMap Nat Nat) ∧
    MultiLevelMap.delete ([] : List Nat) ([] : MLMap Nat Nat) =
      Except.error "delete - no keys specified." :=
  ⟨((throw_and_degrade_behavior ([] : MLMap Nat Nat)
      (Val.leaf 0)).2.2.2.2.2.2.2.2.1 5 [] rfl).1,
   (throw_and_degrade_behavior ([] : MLMap Nat Nat) (Val.leaf 0)).1⟩

/-- C7 counterexample: the conflict error raised by
`set(1, 2, leaf 9)` against a container holding a leaf at `1` carries the
key list `[1]` (the keys passed to `s_FIND_CHILD_MAP`), which is not the
full attempted key path `[1, 2]` the caller passed. -/
theorem conflict_payload_counterexample :
    MultiLevelMap.set [1, 2] (Val.leaf 9) [((1 : Nat), Val.leaf (7 : Nat))] =
      SetResult.conflict 1 [1] [(1, Val.leaf 7)] ∧
    ([1] : List Nat) ≠ [1, 2] :=
  ⟨rfl, by decide⟩

/-- C7 amended: every conflict error raised by `set` carries the offending
key and the key path passed to child-map resolution — all keys the caller
passed except the final index key (`keys.dropLast`) — and the offending
key is one of those resolution keys. -/
theorem conflict_payload_amended (ps : List K) (v : Val K A)
    (m : MLMap K A) (key : K) (eks : List K) (s : MLMap K A)
    (h : MultiLevelMap.set ps v m = SetResult.conflict key eks s) :
    eks = ps.dropLast ∧ key ∈ eks := by
  cases ps with
  | nil => exact SetResult.noConfusion h
  | cons k ks =>
    simp only [MultiLevelMap.set] at h
    cases hw : setWalk (splitLast k ks).1 (splitLast k ks).2 v m with
    | ok r t =>
      rw [hw] at h
      exact SetResult.noConfusion h
    | conflict key2 r =>
      rw [hw] at h
      injection h with h1 h2 h3
      subst h1
      subst h2
      exact ⟨splitLast_fst_dropLast ks k,
        setWalk_conflict_key_mem _ _ _ _ hw⟩

/-- C7 amended witness: the amended theorem applied at the conflicting
call of the counterexample. -/
theorem conflict_payload_amended_witness :
    ([1] : List Nat) = ([1, 2] : List Nat).dropLast ∧ (1 : Nat) ∈ ([1] : List Nat) :=
  conflict_payload_amended [1, 2] (Val.leaf (9 : Nat)) [(1, Val.leaf 7)] 1 [1]
    [(1, Val.leaf 7)] (by rfl)

/-- C6: after a successful set over the key path `p ++ [x]` (keys with
distinct entries per level, as in a real Map), `delete` over the same
path returns `true`, afterward `has` over the path is `false`, and every
prefix of `p` — in particular the now possibly empty intermediate
mappings — still resolves to a map: `delete` never prunes emptied
intermediate mappings. -/
theorem delete_keeps_intermediate (p : List K) (x : K) (v : Val K A)
    (m0 m t : MLMap K A) (hwf : WFm m0) (hv : WFv v)
    (h : MultiLevelMap.set (p ++ [x]) v m0 = SetResult.ok m t) :
    ∃ m', MultiLevelMap.delete (p ++ [x]) m = Except.ok (true, m') ∧
      MultiLevelMap.has (p ++ [x]) m' = Except.ok false ∧
      ∀ j, MultiLevelMap.isMap (p.take j) m' = true := by
  rw [set_append] at h
  cases hw : setWalk p x v m0 with
  | conflict key r2 =>
    rw [hw] at h
    exact SetResult.noConfusion h
  | ok r2 t2 =>
    rw [hw] at h
    injection h with h1 h2
    rw [h1, h2] at hw
    obtain ⟨hres, hget⟩ := setWalk_ok_resolve p x v m0 hw
    obtain ⟨hwfr, hwft⟩ := wfm_setWalk p x v m0 hwf hv hw
    refine ⟨modifyAt p (fun mm => mapDelete mm x) m, ?_, ?_, ?_⟩
    · rw [delete_append_found x hres]
      have : mapHas t x = true := by
        simp [mapHas, hget]
      rw [this]
    · rw [has_append]
      have hres' := findChildMap_modifyAt p (fun mm => mapDelete mm x) m t hres
      have hnone : mapGet (mapDelete t x) x = none :=
        mapGet_mapDelete_self x hwft.1
      simp only [pathGet, hres', hnone, Option.isSome_none]
    · intro j
      have hs := findChildMap_take_modifyAt p (fun mm => mapDelete mm x) m t hres j
      cases hq : p.take j with
      | nil => rfl
      | cons a q' =>
        rw [hq] at hs
        exact hs

/-- C6 witness: the theorem applied at `set(1, 2, leaf 7)` on the empty
container. -/
theorem delete_keeps_intermediate_witness :
    ∃ m', MultiLevelMap.delete ([1] ++ [2])
        [((1 : Nat), Val.map [(2, Val.leaf (7 : Nat))])] =
        Except.ok (true, m') ∧
      MultiLevelMap.has ([1] ++ [2]) m' = Except.ok false ∧
      ∀ j, MultiLevelMap.isMap (([1] : List Nat).take j) m' = true :=
  delete_keeps_intermediate [1] 2 (Val.leaf 7) []
    [(1, Val.map [(2, Val.leaf 7)])] [(2, Val.leaf 7)]
    ⟨List.Pairwise.nil, by simp⟩ (WFv.leaf 7) (by rfl)

/-- C8: a successful `set` returns the mapping that received the write:
with exactly two parameters (one key) it returns the root mapping after
setting the key, and with three or more parameters it returns the
resolved (possibly newly created) nested mapping into which the final key
and value were written — the returned `t` is what the key path resolves
to in the new root, and it holds `v` at the final key. -/
theorem set_returns_written_map :
    (∀ (k : K) (v : Val K A) (m : MLMap K A),
       MultiLevelMap.set [k] v m =
         SetResult.ok (mapSet m k v) (mapSet m k v)) ∧
    (∀ (p : List K) (x : K) (v : Val K A) (m r t : MLMap K A), p ≠ [] →
       MultiLevelMap.set (p ++ [x]) v m = SetResult.ok r t →
       findChildMap p r = some t ∧ mapGet t x = some v) := by
  constructor
  · intro k v m
    rfl
  · intro p x v m r t hp h
    rw [set_append] at h
    cases hw : setWalk p x v m with
    | ok r2 t2 =>
      rw [hw] at h
      injection h with h1 h2
      subst h1
      subst h2
      exact setWalk_ok_resolve p x v m hw
    | conflict key r2 =>
      rw [hw] at h
      exact SetResult.noConfusion h

/-- C8 witness: the multi-parameter conjunct applied at
`set(1, 2, leaf 5)` on the empty container. -/
theorem set_returns_written_map_witness :
    findChildMap [1] [((1 : Nat), Val.map [(2, Val.leaf (5 : Nat))])] =
      some [(2, Val.leaf 5)] ∧
    mapGet [((2 : Nat), Val.leaf (5 : Nat))] 2 = some (Val.leaf 5) :=
  set_returns_written_map.2 [1] 2 (Val.leaf 5) []
    [(1, Val.map [(2, Val.leaf 5)])] [(2, Val.leaf 5)] (by simp) (by rfl)

/-- C9: if the value stored by `set(k, mm)` is itself a map, the container
treats it as a nested level: `isMap(k)` is true, and a later
`set(k, k2, v)` descends into `mm` and writes `k2` there, succeeding
without the conflict error. -/
theorem map_value_becomes_level (k k2 : K) (mm : MLMap K A) (v : Val K A)
    (m m1 t1 : MLMap K A)
    (h : MultiLevelMap.set [k] (Val.map mm) m = SetResult.ok m1 t1) :
    MultiLevelMap.isMap [k] m1 = true ∧
    MultiLevelMap.set [k, k2] v m1 =
      SetResult.ok (mapSet m1 k (Val.map (mapSet mm k2 v)))
        (mapSet mm k2 v) := by
  simp only [MultiLevelMap.set, splitLast, setWalk] at h
  injection h with h1 h2
  have hget : mapGet m1 k = some (Val.map mm) := by
    rw [← h1]
    exact mapGet_mapSet_self _ _ _
  constructor
  · show (findChildMap [k] m1).isSome = true
    simp [findChildMap, hget]
  · simp only [MultiLevelMap.set, splitLast, setWalk, hget]

/-- C9 witness: the theorem applied at `set(1, map {3 : leaf 1})` then
`set(1, 2, leaf 9)` on the empty container. -/
theorem map_value_becomes_level_witness :
    MultiLevelMap.isMap [1] [((1 : Nat), Val.map [(3, Val.leaf (1 : Nat))])] = true ∧
    MultiLevelMap.set [1, 2] (Val.leaf 9)
        [(1, Val.map [(3, Val.leaf 1)])] =
      SetResult.ok
        (mapSet [(1, Val.map [(3, Val.leaf 1)])] 1
          (Val.map (mapSet [(3, Val.leaf 1)] 2 (Val.leaf 9))))
        (mapSet [(3, Val.leaf 1)] 2 (Val.leaf 9)) :=
  map_value_becomes_level 1 2 [(3, Val.leaf 1)] (Val.leaf 9) []
    [(1, Val.map [(3, Val.leaf 1)])] [(1, Val.map [(3, Val.leaf 1)])] (by rfl)

/-- C10: when `clear(...P)` is called with a non-empty key path `P` that
resolves to a nested mapping, only that mapping's contents are removed:
the mapping stays present at its path (`isMap(...P)` remains true and
`size(...P)` becomes 0), and every entry outside it — every key path
incomparable with `P`, which includes all of its ancestors' other
entries — reads unchanged. -/
theorem clear_scoped (P : List K) (m t : MLMap K A) (hP : P ≠ [])
    (h : findChildMap P m = some t) :
    MultiLevelMap.isMap P (MultiLevelMap.clear P m) = true ∧
    MultiLevelMap.size P (MultiLevelMap.clear P m) = 0 ∧
    ∀ (p : List K) (x : K), pathPreB P (p ++ [x]) = false →
      pathPreB (p ++ [x]) P = false →
      MultiLevelMap.get (p ++ [x]) (MultiLevelMap.clear P m) =
        MultiLevelMap.get (p ++ [x]) m := by
  cases P with
  | nil => exact absurd rfl hP
  | cons P1 Ps =>
    have hclear : MultiLevelMap.clear (P1 :: Ps) m =
        modifyAt (P1 :: Ps) (fun _ => []) m := by
      simp only [MultiLevelMap.clear, h]
    have hres := findChildMap_modifyAt (P1 :: Ps) (fun _ => []) m t h
    refine ⟨?_, ?_, ?_⟩
    · rw [hclear, isMap_ne_nil (List.cons_ne_nil P1 Ps), hres]
      rfl
    · rw [hclear]
      simp only [MultiLevelMap.size, hres, List.length_nil]
    · intro p x h1 h2
      rw [hclear, get_append, get_append,
        modifyAt_pathGet_frame (P1 :: Ps) _ m p x h1 h2]

/-- C10 witness: the theorem applied at `P = [1]` on a container with a
nested map at `1` and a sibling leaf at `9`; the frame part is checked at
the sibling path `[9]`. -/
theorem clear_scoped_witness :
    MultiLevelMap.isMap [1]
      (MultiLevelMap.clear [1]
        [((1 : Nat), Val.map [(2, Val.leaf (3 : Nat))]), (9, Val.leaf 4)]) = true ∧
    MultiLevelMap.size [1]
      (MultiLevelMap.clear [1]
        [((1 : Nat), Val.map [(2, Val.leaf (3 : Nat))]), (9, Val.leaf 4)]) = 0 ∧
    MultiLevelMap.get ([] ++ [9])
        (MultiLevelMap.clear [1]
          [((1 : Nat), Val.map [(2, Val.leaf (3 : Nat))]), (9, Val.leaf 4)]) =
      MultiLevelMap.get ([] ++ [9])
        [((1 : Nat), Val.map [(2, Val.leaf (3 : Nat))]), (9, Val.leaf 4)] :=
  ⟨(clear_scoped [1] [(1, Val.map [(2, Val.leaf 3)]), (9, Val.leaf 4)]
      [(2, Val.leaf 3)] (by simp) (by rfl)).1,
   (clear_scoped [1] [(1, Val.map [(2, Val.leaf 3)]), (9, Val.leaf 4)]
      [(2, Val.leaf 3)] (by simp) (by rfl)).2.1,
   (clear_scoped [1] [(1, Val.map [(2, Val.leaf 3)]), (9, Val.leaf 4)]
      [(2, Val.leaf 3)] (by simp) (by rfl)).2.2 [] 9 (by rfl) (by rfl)⟩
